import Mathlib

/-!
Verification of the real-time EMG streaming pipeline
(`Muscle Project/real_time_processor.py` and `Muscle Project/feature_extractor.py`).

The pipeline ingests integer samples from a serial port, keeps a rolling
window (`collections.deque` with `maxlen=buffer_size`), applies a causal
band-pass IIR filter (`scipy.signal.lfilter` with carried state `zi`),
extracts four scalar features, and publishes results through bounded queues.

Samples and filter values are modelled as exact rationals (`ℚ`); the source
works with IEEE doubles, so statements phrased "within numerical tolerance"
become exact equalities here.  Possibly non-finite values (NaN/inf), which
`_process_window` checks for defensively, are modelled by the `EValue` type.
-/

namespace EMG

/-- A sample value as seen by `_process_window`: either a finite numeric
value or one of the non-finite IEEE values (NaN, +inf, -inf) that
`np.isnan` / `np.isinf` test for. -/
inductive EValue where
  | finite (q : ℚ)
  | nan
  | inf
  | ninf
deriving DecidableEq, Repr

/-- True exactly on finite values: the negation of
`np.isnan(v) or np.isinf(v)`. -/
def EValue.isFinite : EValue → Bool
  | .finite _ => true
  | _ => false

/-- The numeric content of a finite value (junk value 0 on non-finite
inputs, which every caller rules out first, mirroring the early return of
`_process_window` on non-finite windows). -/
def EValue.toQ : EValue → ℚ
  | .finite q => q
  | _ => 0

/-!
Causal filter: `scipy.signal.lfilter(b, a, x, zi=zi)` in transposed
direct-form II.  With the normalization `a[0] = 1` (which `scipy.signal.butter`
guarantees; `lfilter` divides both coefficient vectors by `a[0]` internally),
one sample `x` updates the state vector `z` of length `n` by

  y    = b[0]*x + z[0]
  z[i] = b[i+1]*x + z[i+1] - a[i+1]*y   (with z[n] read as 0),

coefficients out of range read as 0.
-/

/-- One sample of `scipy.signal.lfilter` (transposed direct-form II):
returns the output sample and the updated state vector. -/
def lfilterStep (b a z : List ℚ) (x : ℚ) : ℚ × List ℚ :=
  let y := b.headD 0 * x + z.headD 0
  (y, (List.range z.length).map fun i =>
    b.getD (i + 1) 0 * x + z.getD (i + 1) 0 - a.getD (i + 1) 0 * y)

/-- Run `lfilter` over a list of samples from state `z`, returning the
filtered output and the final state. -/
def lfilterAux (b a : List ℚ) : List ℚ → List ℚ → List ℚ × List ℚ
  | z, [] => ([], z)
  | z, x :: xs =>
    let p := lfilterStep b a z x
    let q := lfilterAux b a p.2 xs
    (p.1 :: q.1, q.2)

/-- The call `filtered_signal, self.filter_state = signal.lfilter(self.b,
self.a, window, zi=self.filter_state)` of `_process_window`. -/
def lfilter (b a x zi : List ℚ) : List ℚ × List ℚ :=
  lfilterAux b a zi x

/-!
Feature extraction, from `RealTimeDataProcessor._extract_features`
(real_time_processor.py lines 247-265) and, for the zero-crossing variant,
`FeatureExtractor.extract_features` (feature_extractor.py lines 26-41).
-/

/-- Count over consecutive pairs of a list: the number of indices `i` with
`p l[i] l[i+1]`, i.e. `np.sum` of a predicate applied to `np.diff`-style
adjacent pairs. -/
def countPairs (p : ℚ → ℚ → Bool) : List ℚ → ℕ
  | x :: y :: t => (if p x y then 1 else 0) + countPairs p (y :: t)
  | _ => 0

/-- The forward difference `np.diff(w)`: `w[i+1] - w[i]`. -/
def npDiff (w : List ℚ) : List ℚ :=
  List.zipWith (fun u v => v - u) w w.tail

/-- The sign of `np.sign`: -1, 0 or 1. -/
def npSign (x : ℚ) : ℤ :=
  if x < 0 then -1 else if x = 0 then 0 else 1

/-- Mean Absolute Value: `np.mean(np.abs(signal))`. -/
def mav (w : List ℚ) : ℚ :=
  (w.map fun x => |x|).sum / w.length

/-- The mean `np.mean(signal)`. -/
def npMean (w : List ℚ) : ℚ :=
  w.sum / w.length

/-- The squared population standard deviation: `np.std(signal) ** 2`.
The STD feature of the source is its square root, which is zero exactly
when this rational is zero. -/
def std_sq (w : List ℚ) : ℚ :=
  (w.map fun x => (x - npMean w) ^ 2).sum / w.length

/-- Slope Sign Changes: with `diff = np.diff(signal)`, the count
`np.sum((diff[:-1] * diff[1:]) < 0)`. -/
def ssc (w : List ℚ) : ℕ :=
  countPairs (fun d e => decide (d * e < 0)) (npDiff w)

/-- Zero Crossings of the real-time processor:
`np.sum(np.diff(np.signbit(signal)))`.  `np.signbit` is true exactly on
negative values (an exact zero is grouped with the positives), and
`np.diff` on a boolean array counts adjacent inequality. -/
def zc_signbit (w : List ℚ) : ℕ :=
  countPairs (fun x y => decide (x < 0) != decide (y < 0)) w

/-- Zero Crossings of the offline `FeatureExtractor`:
`np.sum(np.diff(np.sign(window)) != 0)`, which treats an exact zero as its
own sign class, so a zero sample acts as a sign boundary. -/
def zc_sign (w : List ℚ) : ℕ :=
  countPairs (fun x y => decide (npSign y - npSign x ≠ 0)) w

/-- The four-scalar feature vector returned by `_extract_features`
(the source stores `std = sqrt(std_sq)`; we carry the square). -/
structure Features where
  mav : ℚ
  std_sq : ℚ
  ssc : ℕ
  zc : ℕ
deriving DecidableEq, Repr

/-- `RealTimeDataProcessor._extract_features` on a filtered window. -/
def extract_features (w : List ℚ) : Features :=
  ⟨mav w, std_sq w, ssc w, zc_signbit w⟩

/-- The spec's alternating test window starting at `b = true` with value 1:
`altFrom true n = [1, -1, 1, -1, ...]` of length `n`. -/
def altFrom : Bool → ℕ → List ℚ
  | _, 0 => []
  | b, n + 1 => (if b then 1 else -1) :: altFrom (!b) n

/-- The window `[1, -1, 1, -1, ...]` of length `n` from the spec's
Feature Extractor test property. -/
def altWindow (n : ℕ) : List ℚ :=
  altFrom true n

/-!
The Processing Stage (`_processing_loop` and `_process_window`,
real_time_processor.py lines 129-235).  The rolling buffer is a
`collections.deque(maxlen=buffer_size)`; each consumed sample is appended
and, when the buffer holds exactly `buffer_size` samples, `_process_window`
runs: it validates the window, filters it with the carried `lfilter` state
(lazily initialized to `lfilter_zi(b, a)`), extracts features, evicts
`step_size` oldest samples (defensively stopping at an empty buffer), bumps
`samples_processed`, and the loop pushes the result into the bounded
`result_queue`, dropping it if that queue is full.
-/

/-- Append to a `collections.deque(maxlen=maxlen)`: when the deque already
holds `maxlen` items, the oldest items are discarded from the left. -/
def dequeAppend {α : Type} (maxlen : ℕ) (buf : List α) (x : α) : List α :=
  let g := buf ++ [x]
  if maxlen < g.length then g.drop (g.length - maxlen) else g

/-- The eviction loop of `_process_window`:
`for _ in range(n): if buffer: buffer.popleft()`. -/
def evictLoop {α : Type} : ℕ → List α → List α
  | 0, buf => buf
  | n + 1, buf => evictLoop n buf.tail

/-- The `Result` dictionary published per processed window (the wall-clock
timestamp field is not modelled; with no model loaded, `prediction` is
`None`). -/
structure Result where
  raw_signal : List EValue
  filtered_signal : List ℚ
  features : Features
  prediction : Option ℤ
deriving DecidableEq, Repr

/-- Static configuration of the Processing Stage: window capacity,
slide amount, filter coefficients `b`, `a` from `signal.butter`, the value
`zi0 = signal.lfilter_zi(b, a)` used for lazy state initialization, and
the `result_queue` capacity (100 in the source). -/
structure ProcConfig where
  buffer_size : ℕ
  step_size : ℕ
  b : List ℚ
  a : List ℚ
  zi0 : List ℚ
  result_cap : ℕ

/-- Mutable state of the Processing Stage.  `windows` is a ghost trace
recording, in order, each raw window for which `_process_window` produced a
result; it instruments the source without altering its behaviour. -/
structure ProcState where
  buffer : List EValue
  filter_state : Option (List ℚ)
  samples_processed : ℕ
  windows : List (List EValue)
  result_queue : List Result
deriving DecidableEq, Repr

/-- The initial Processing Stage state built by `__init__`: empty deque,
`filter_state = None`, zero counters. -/
def initProcState : ProcState :=
  ⟨[], none, 0, [], []⟩

/-- `queue.Queue(maxsize=cap).put_nowait` observed on the queue contents:
appends unless the queue is full, in which case the item is discarded
(the `except queue.Full: pass` of `_processing_loop`). -/
def putNowaitResult (cap : ℕ) (q : List Result) (r : Result) : List Result :=
  if q.length < cap then q ++ [r] else q

/-- `RealTimeDataProcessor._process_window`: validates the window length
and finiteness, filters with the carried state (lazily initialized from
`zi0`), extracts features, evicts `step_size` oldest samples and increments
`samples_processed`.  On a failed validation it returns `None` and leaves
the state untouched.  (The source also re-checks the *filtered* signal for
non-finite values; over exact rational arithmetic that check can never
fire, so it has no branch here.) -/
def process_window (cfg : ProcConfig) (st : ProcState) : Option Result × ProcState :=
  let window := st.buffer
  if window.length ≠ cfg.buffer_size then (none, st)
  else if window.any (fun v => !v.isFinite) then (none, st)
  else
    let zi := st.filter_state.getD cfg.zi0
    let fr := lfilter cfg.b cfg.a (window.map EValue.toQ) zi
    let r : Result := ⟨window, fr.1, extract_features fr.1, none⟩
    (some r,
      { buffer := evictLoop cfg.step_size st.buffer
        filter_state := some fr.2
        samples_processed := st.samples_processed + 1
        windows := st.windows ++ [window]
        result_queue := st.result_queue })

/-- One iteration of `_processing_loop` after a sample was obtained from
the data queue: append to the deque; if the buffer is full, run
`_process_window` and, on success, push the result (drop-on-full).  The
boolean records whether the processing trigger fired. -/
def procStep (cfg : ProcConfig) (st : ProcState) (v : EValue) : ProcState × Bool :=
  let buf := dequeAppend cfg.buffer_size st.buffer v
  let st1 : ProcState := { st with buffer := buf }
  if buf.length = cfg.buffer_size then
    let pr := process_window cfg st1
    match pr.1 with
    | some r =>
      ({ pr.2 with result_queue := putNowaitResult cfg.result_cap pr.2.result_queue r },
        true)
    | none => (pr.2, true)
  else (st1, false)

/-- Run the Processing Stage over a list of accepted samples from the
freshly constructed state. -/
def procRun (cfg : ProcConfig) (samples : List EValue) : ProcState :=
  samples.foldl (fun st v => (procStep cfg st v).1) initProcState

/-- Concrete Processing Stage fixture: capacity 3, step 1, pass-through
coefficients, two-entry initial filter state. -/
def cfg0 : ProcConfig := ⟨3, 1, [1], [1], [0, 0], 5⟩

/-- Concrete Processing Stage state holding a full finite window. -/
def st0 : ProcState := ⟨[.finite 1, .finite 2, .finite 3], none, 0, [], []⟩

/-!
The Ingestion Stage (`_data_collection_loop`, real_time_processor.py lines
99-127).  Each serial line either fails `int(...)` parsing (the
`ValueError` branch: `continue`, touching no counter) or yields an integer
sample: `samples_collected` is incremented, then `data_queue.put_nowait`
is attempted; on `queue.Full` the sample is discarded and
`samples_dropped` is incremented.  The Processing Stage concurrently
drains the queue; `drains` records how many samples it removed before
this unit was handled.
-/

/-- One serial-read iteration: the number of samples the consumer removed
from the data queue since the previous unit, and the parse outcome
(`none` models the `ValueError` of `int(ser.readline()...)`). -/
structure RawUnit where
  drains : ℕ
  payload : Option ℤ

/-- Observable outcome of one ingestion iteration. -/
inductive IngestEvent where
  | skipped
  | enqueued
  | droppedFull
deriving DecidableEq, Repr

/-- State touched by `_data_collection_loop`: the bounded data queue and
the two counters. -/
structure IngestState where
  data_queue : List ℤ
  samples_collected : ℕ
  samples_dropped : ℕ
deriving DecidableEq, Repr

/-- One iteration of `_data_collection_loop` with queue capacity `cap`
(1000 in the source): apply the concurrent drains, then parse; on success
increment `samples_collected` and attempt the non-blocking enqueue,
incrementing `samples_dropped` when the queue is full. -/
def ingestStep (cap : ℕ) (st : IngestState) (u : RawUnit) : IngestState × IngestEvent :=
  let st1 : IngestState := { st with data_queue := st.data_queue.drop u.drains }
  match u.payload with
  | none => (st1, .skipped)
  | some v =>
    let st2 : IngestState := { st1 with samples_collected := st1.samples_collected + 1 }
    if st2.data_queue.length < cap then
      ({ st2 with data_queue := st2.data_queue ++ [v] }, .enqueued)
    else
      ({ st2 with samples_dropped := st2.samples_dropped + 1 }, .droppedFull)

/-- Run the Ingestion Stage over a list of raw units, returning the final
state and the per-unit outcome trace. -/
def ingestRun (cap : ℕ) (st : IngestState) : List RawUnit → IngestState × List IngestEvent
  | [] => (st, [])
  | u :: us =>
    let p := ingestStep cap st u
    let q := ingestRun cap p.1 us
    (q.1, p.2 :: q.2)

/-!
Construction (`RealTimeDataProcessor.__init__`, real_time_processor.py
lines 13-68).  The constructor stores its arguments and builds
`deque(maxlen=buffer_size)`; `collections.deque` raises `ValueError` for
a negative `maxlen`, and no other size validation of any kind is
performed — in particular `step_size` is never compared with
`buffer_size`, and `buffer_size = 0` is accepted.
-/

/-- The size-governing constructor arguments of
`RealTimeDataProcessor.__init__` (the serial and filter arguments take no
part in any size check). -/
structure InitConfig where
  buffer_size : ℤ
  step_size : ℤ

/-- `RealTimeDataProcessor.__init__` observed on the stored sizes: fails
only when `deque(maxlen=buffer_size)` rejects a negative `maxlen`;
otherwise stores `(buffer_size, step_size)` unexamined. -/
def init_processor (c : InitConfig) : Option (ℤ × ℤ) :=
  if c.buffer_size < 0 then none
  else some (c.buffer_size, c.step_size)

/-!
The Pipeline Controller surface (`start`, `stop`, `get_latest_result`,
real_time_processor.py lines 70-97 and 320-330).
-/

/-- Controller state: the `running` flag, the two thread handles (ghost
identities; `None` on a never-started controller), and a ghost count of
spawned Ingestion/Processing thread pairs. -/
structure Controller where
  running : Bool
  collection_thread : Option ℕ
  processing_thread : Option ℕ
  pairs_spawned : ℕ
deriving DecidableEq, Repr

/-- Controller state after `__init__`: not running, no threads spawned. -/
def initController : Controller :=
  ⟨false, none, none, 0⟩

/-- `RealTimeDataProcessor.start`: when already running, print a warning
and return unchanged; otherwise set `running` and spawn one
collection/processing thread pair. -/
def start (c : Controller) : Controller :=
  if c.running then c
  else
    { running := true
      collection_thread := some c.pairs_spawned
      processing_thread := some c.pairs_spawned
      pairs_spawned := c.pairs_spawned + 1 }

/-- `RealTimeDataProcessor.stop`: clear `running`, then join each thread
only if its handle is set (`if self.collection_thread:`), so on a
never-started controller both joins are skipped and nothing is raised;
joining does not change the observable controller state. -/
def stop (c : Controller) : Controller :=
  { c with running := false }

/-- `RealTimeDataProcessor.get_latest_result`:
`result_queue.get_nowait()` wrapped in `try/except queue.Empty`, so it
never blocks: it removes and returns the oldest queued result, or returns
`None` when the queue is empty. -/
def get_latest_result (q : List Result) : Option (Result × List Result) :=
  match q with
  | [] => none
  | r :: rest => some (r, rest)

/-- C1: for every finite input stream split into two consecutive chunks,
filtering the first chunk from any initial state (in particular the
`lfilter_zi` initial state) and then the second chunk from the
carried-forward state produces exactly the outputs and final state of
filtering the whole concatenated stream at once.  Over exact rational
arithmetic the equality is exact, hence within any numerical tolerance. -/
theorem lfilter_chunked (b a zi xs ys : List ℚ) :
    lfilter b a (xs ++ ys) zi =
      ((lfilter b a xs zi).1 ++ (lfilter b a ys (lfilter b a xs zi).2).1,
        (lfilter b a ys (lfilter b a xs zi).2).2) := by
  unfold lfilter
  induction xs generalizing zi with
  | nil => simp [lfilterAux]
  | cons x xs ih => simp [lfilterAux, ih]

/-- C6 counterexample: on the length-3 window `[1, 0, 1]`, treating the
exact-zero middle sample as a sign boundary gives 2 sign changes (as the
offline extractor's `np.sign` variant does), but the real-time Feature
Extractor's `np.signbit` variant reports 0: the exact zero is grouped with
the positives, not handled as a sign boundary. -/
theorem zc_zero_not_boundary :
    zc_signbit [1, 0, 1] = 0 ∧ zc_sign [1, 0, 1] = 2 := by
  decide

theorem countPairs_cons_cons (p : ℚ → ℚ → Bool) (x y : ℚ) (t : List ℚ) :
    countPairs p (x :: y :: t) = (if p x y then 1 else 0) + countPairs p (y :: t) :=
  rfl

theorem signbit_pair_eq_sign_pair {x y : ℚ} (hx : x ≠ 0) (hy : y ≠ 0) :
    (decide (x < 0) != decide (y < 0)) = decide (npSign y - npSign x ≠ 0) := by
  by_cases hx0 : x < 0 <;> by_cases hy0 : y < 0 <;>
    simp [npSign, hx0, hy0, hx, hy]

/-- C6 (amended): for every window of length ≥ 3 containing no exact-zero
sample, the real-time Feature Extractor's ZC equals the count of sign
changes between consecutive samples (the `np.sign`-based count of the
offline extractor).  An exact-zero sample is treated as positive by the
real-time extractor, not as a sign boundary (see the counterexample). -/
theorem zc_eq_sign_changes (w : List ℚ) (_hlen : 3 ≤ w.length)
    (hz : ∀ x ∈ w, x ≠ 0) : zc_signbit w = zc_sign w := by
  clear _hlen
  induction w with
  | nil => rfl
  | cons x t ih =>
    cases t with
    | nil => rfl
    | cons y t2 =>
      have hx : x ≠ 0 := hz x (by simp)
      have hy : y ≠ 0 := hz y (by simp)
      have ht : ∀ z ∈ y :: t2, z ≠ 0 := fun z hm => hz z (List.mem_cons_of_mem _ hm)
      have hih := ih ht
      unfold zc_signbit zc_sign at hih ⊢
      simp only [countPairs_cons_cons]
      rw [hih, signbit_pair_eq_sign_pair hx hy]

/-- Witness for `zc_eq_sign_changes` at the window `[1, -2, 3]`. -/
theorem zc_eq_sign_changes_witness :
    zc_signbit [1, -2, 3] = zc_sign [1, -2, 3] :=
  zc_eq_sign_changes [1, -2, 3] (by decide) (by decide)

theorem countPairs_replicate_self (p : ℚ → ℚ → Bool) (a : ℚ)
    (hp : p a a = false) : ∀ m, countPairs p (List.replicate m a) = 0 := by
  intro m
  induction m with
  | zero => rfl
  | succ k ihk =>
    cases k with
    | zero => rfl
    | succ j =>
      rw [List.replicate_succ, List.replicate_succ]
      simp only [countPairs_cons_cons, hp]
      simp [← List.replicate_succ, ihk]

theorem zc_altFrom : ∀ (n : ℕ) (b : Bool), zc_signbit (altFrom b (n + 1)) = n := by
  intro n
  induction n with
  | zero =>
    intro b
    cases b <;> rfl
  | succ m ih =>
    intro b
    have hstep : altFrom b (m + 2) =
        (if b then (1 : ℚ) else -1) :: altFrom (!b) (m + 1) := rfl
    have hnext : altFrom (!b) (m + 1) =
        (if !b then (1 : ℚ) else -1) :: altFrom (!(!b)) m := rfl
    unfold zc_signbit at ih ⊢
    rw [hstep, hnext]
    simp only [countPairs_cons_cons]
    rw [← hnext, ih (!b)]
    cases b <;> norm_num <;> omega

theorem npMean_replicate (c : ℚ) (n : ℕ) (hn : n ≠ 0) :
    npMean (List.replicate n c) = c := by
  have hq : (n : ℚ) ≠ 0 := Nat.cast_ne_zero.mpr hn
  simp only [npMean, List.sum_replicate, List.length_replicate, nsmul_eq_mul]
  field_simp

/-- C7: a constant-valued window of length ≥ 3 has population standard
deviation 0 (its square, the variance, is 0) and SSC = 0; the alternating
window `[1, -1, 1, ...]` of length n ≥ 3 has ZC = n - 1. -/
theorem const_and_alternating_features (c : ℚ) (n : ℕ) (hn : 3 ≤ n) :
    std_sq (List.replicate n c) = 0 ∧ ssc (List.replicate n c) = 0 ∧
      zc_signbit (altWindow n) = n - 1 := by
  have hn0 : n ≠ 0 := by omega
  refine ⟨?_, ?_, ?_⟩
  · simp [std_sq, npMean_replicate c n hn0, List.map_replicate]
  · have key : ∀ (m : ℕ) (d : ℚ),
        List.zipWith (fun u v => v - u) (d :: List.replicate m d)
          (List.replicate m d) = List.replicate m 0 := by
      intro m
      induction m with
      | zero => intro d; rfl
      | succ j ihj =>
        intro d
        simp only [List.replicate_succ, List.zipWith_cons_cons, sub_self]
        rw [← List.replicate_succ]
        have := ihj d
        simp only [List.replicate_succ] at this ⊢
        rw [this]
    have hdiff : npDiff (List.replicate n c) = List.replicate (n - 1) 0 := by
      cases n with
      | zero => omega
      | succ m =>
        simp only [npDiff, List.replicate_succ, List.tail_cons]
        rw [← List.replicate_succ]
        simp only [Nat.add_sub_cancel]
        exact key m c
    rw [ssc, hdiff]
    exact countPairs_replicate_self _ 0 (by norm_num) (n - 1)
  · obtain ⟨m, rfl⟩ : ∃ m, n = m + 1 := ⟨n - 1, by omega⟩
    simpa [altWindow] using zc_altFrom m true

/-- Witness for `const_and_alternating_features` at the constant 5 and
length 4. -/
theorem const_and_alternating_features_witness :
    std_sq (List.replicate 4 (5 : ℚ)) = 0 ∧ ssc (List.replicate 4 (5 : ℚ)) = 0 ∧
      zc_signbit (altWindow 4) = 4 - 1 :=
  const_and_alternating_features 5 4 (by decide)

theorem dequeAppend_length_le {α : Type} (maxlen : ℕ) (buf : List α) (x : α) :
    (dequeAppend maxlen buf x).length ≤ maxlen := by
  simp only [dequeAppend]
  split
  · simp only [List.length_drop]
    omega
  · next h =>
    simp only [not_lt] at h
    exact h

theorem evictLoop_eq_drop {α : Type} : ∀ (n : ℕ) (buf : List α),
    evictLoop n buf = buf.drop n := by
  intro n
  induction n with
  | zero => intro buf; rfl
  | succ m ih =>
    intro buf
    cases buf with
    | nil => simp [evictLoop, ih]
    | cons y t => simp [evictLoop, ih, List.drop_succ_cons]

theorem process_window_snd_buffer_le (cfg : ProcConfig) (st : ProcState) :
    (process_window cfg st).2.buffer.length ≤ st.buffer.length := by
  simp only [process_window]
  split
  · exact le_refl _
  · split
    · exact le_refl _
    · simp [evictLoop_eq_drop]

theorem procStep_buffer_le (cfg : ProcConfig) (st : ProcState) (v : EValue) :
    (procStep cfg st v).1.buffer.length ≤ cfg.buffer_size := by
  simp only [procStep]
  split
  · next h =>
    split
    · next r heq =>
      simp only []
      exact le_trans (process_window_snd_buffer_le cfg _) (le_of_eq h)
    · next heq =>
      exact le_trans (process_window_snd_buffer_le cfg _) (le_of_eq h)
  · exact dequeAppend_length_le _ _ _

theorem procRun_buffer_le (cfg : ProcConfig) :
    ∀ (samples : List EValue) (st : ProcState), st.buffer.length ≤ cfg.buffer_size →
      (samples.foldl (fun s v => (procStep cfg s v).1) st).buffer.length ≤ cfg.buffer_size := by
  intro samples
  induction samples with
  | nil => intro st h; exact h
  | cons v vs ih =>
    intro st _
    exact ih _ (procStep_buffer_le cfg st v)

/-- C2: for every sequence of accepted samples fed to the Processing
Stage from the freshly constructed state, the rolling window length never
exceeds `buffer_size`, and the processing trigger of `_processing_loop`
fires exactly when the buffer length after the append equals
`buffer_size`, never at any smaller (or other) length. -/
theorem window_invariant_and_trigger (cfg : ProcConfig) (samples : List EValue) :
    (procRun cfg samples).buffer.length ≤ cfg.buffer_size ∧
      ∀ (st : ProcState) (v : EValue),
        ((procStep cfg st v).2 = true ↔
          (dequeAppend cfg.buffer_size st.buffer v).length = cfg.buffer_size) := by
  constructor
  · exact procRun_buffer_le cfg samples initProcState (by simp [initProcState])
  · intro st v
    simp only [procStep]
    by_cases h : (dequeAppend cfg.buffer_size st.buffer v).length = cfg.buffer_size
    · simp only [h, if_true]
      split <;> simp [h]
    · simp [h]

/-- C10: if the assembled window contains a non-finite value (NaN or an
infinity), `_process_window` returns `None` and leaves the Processing
Stage state completely unchanged: the rolling window is not evicted, the
filter state is neither initialized nor mutated, and `samples_processed`
is not incremented. -/
theorem process_window_nonfinite (cfg : ProcConfig) (st : ProcState)
    (h : ∃ v ∈ st.buffer, v.isFinite = false) :
    process_window cfg st = (none, st) := by
  have hany : st.buffer.any (fun v => !v.isFinite) = true := by
    obtain ⟨v, hv, hfin⟩ := h
    exact List.any_eq_true.mpr ⟨v, hv, by simp [hfin]⟩
  simp [process_window, hany]

/-- Witness for `process_window_nonfinite`: a full-length window of size 3
whose middle sample is NaN is rejected with the state unchanged. -/
theorem process_window_nonfinite_witness :
    process_window ⟨3, 1, [1], [1], [0], 100⟩
        ⟨[.finite 1, .nan, .finite 2], none, 0, [], []⟩ =
      (none, ⟨[.finite 1, .nan, .finite 2], none, 0, [], []⟩) :=
  process_window_nonfinite _ _ (by decide)

theorem dequeAppend_of_lt {α : Type} (maxlen : ℕ) (buf : List α) (x : α)
    (h : buf.length < maxlen) : dequeAppend maxlen buf x = buf ++ [x] := by
  simp only [dequeAppend, List.length_append, List.length_singleton]
  rw [if_neg (by omega)]

theorem process_window_success (cfg : ProcConfig) (st : ProcState)
    (hlen : st.buffer.length = cfg.buffer_size)
    (hfin : ∀ v ∈ st.buffer, v.isFinite = true) :
    (process_window cfg st).1.isSome = true ∧
      (process_window cfg st).2.buffer = st.buffer.drop cfg.step_size ∧
      (process_window cfg st).2.windows = st.windows ++ [st.buffer] := by
  have hany : st.buffer.any (fun v => !v.isFinite) = false := by
    rw [List.any_eq_false]
    intro x hx
    simp [hfin x hx]
  simp [process_window, hlen, hany, evictLoop_eq_drop]

theorem procStep_no_trigger (cfg : ProcConfig) (st : ProcState) (v : EValue)
    (h : (dequeAppend cfg.buffer_size st.buffer v).length ≠ cfg.buffer_size) :
    procStep cfg st v = ({ st with buffer := dequeAppend cfg.buffer_size st.buffer v }, false) := by
  simp [procStep, h]

theorem procStep_trigger_success (cfg : ProcConfig) (st : ProcState) (v : EValue)
    (h : (dequeAppend cfg.buffer_size st.buffer v).length = cfg.buffer_size)
    (hfin : ∀ x ∈ dequeAppend cfg.buffer_size st.buffer v, x.isFinite = true) :
    (procStep cfg st v).1.buffer = (dequeAppend cfg.buffer_size st.buffer v).drop cfg.step_size ∧
      (procStep cfg st v).1.windows =
        st.windows ++ [dequeAppend cfg.buffer_size st.buffer v] := by
  have hsucc := process_window_success cfg
    { st with buffer := dequeAppend cfg.buffer_size st.buffer v } h hfin
  simp only [procStep, h, if_true]
  split
  · next r hpr => exact ⟨hsucc.2.1, hsucc.2.2⟩
  · next hpr =>
    rw [hpr] at hsucc
    simp at hsucc

theorem run_fill (cfg : ProcConfig) :
    ∀ (vs : List EValue) (st : ProcState),
      st.buffer.length + vs.length = cfg.buffer_size →
      0 < vs.length →
      (∀ v ∈ st.buffer, v.isFinite = true) →
      (∀ v ∈ vs, v.isFinite = true) →
      (vs.foldl (fun s v => (procStep cfg s v).1) st).windows =
          st.windows ++ [st.buffer ++ vs] ∧
        (vs.foldl (fun s v => (procStep cfg s v).1) st).buffer =
          (st.buffer ++ vs).drop cfg.step_size := by
  intro vs
  induction vs with
  | nil =>
    intro st _ h0 _ _
    simp at h0
  | cons v vs ih =>
    intro st hsum hpos hbuf hvs
    have hv : v.isFinite = true := hvs v (by simp)
    have hvs2 : ∀ x ∈ vs, x.isFinite = true := fun x hx => hvs x (List.mem_cons_of_mem _ hx)
    have hda : dequeAppend cfg.buffer_size st.buffer v = st.buffer ++ [v] := by
      apply dequeAppend_of_lt
      simp at hsum
      omega
    have hfinapp : ∀ x ∈ st.buffer ++ [v], x.isFinite = true := by
      intro x hx
      rcases List.mem_append.mp hx with hx1 | hx1
      · exact hbuf x hx1
      · simp at hx1
        subst hx1
        exact hv
    cases vs with
    | nil =>
      have hfull : (dequeAppend cfg.buffer_size st.buffer v).length = cfg.buffer_size := by
        rw [hda]
        simp at hsum ⊢
        omega
      have hstep := procStep_trigger_success cfg st v hfull (hda ▸ hfinapp)
      rw [hda] at hstep
      simp only [List.foldl_cons, List.foldl_nil]
      exact ⟨hstep.2, hstep.1⟩
    | cons w ws =>
      have hlt : (dequeAppend cfg.buffer_size st.buffer v).length ≠ cfg.buffer_size := by
        rw [hda]
        simp at hsum ⊢
        omega
      simp only [List.foldl_cons]
      rw [procStep_no_trigger cfg st v hlt, hda]
      have hrec := ih { st with buffer := st.buffer ++ [v] }
        (by simp at hsum ⊢; omega)
        (by simp)
        (by exact hfinapp)
        hvs2
      simpa [List.append_assoc] using hrec

/-- C3: the eviction loop of `_process_window` removes exactly
`min(step_size, prior length)` samples without failing on a short buffer;
every successful window processing therefore shrinks the rolling window by
exactly that amount; and when `0 < step_size < buffer_size`, the window
processed after refilling shares exactly the last `buffer_size - step_size`
samples of its predecessor as its prefix (the overlap). -/
theorem eviction_and_overlap (cfg : ProcConfig) :
    (∀ (n : ℕ) (l : List EValue), (evictLoop n l).length = l.length - min n l.length) ∧
      (∀ (st : ProcState) (r : Result) (st' : ProcState),
        process_window cfg st = (some r, st') →
        st'.buffer.length = st.buffer.length - min cfg.step_size st.buffer.length) ∧
      (∀ (st : ProcState) (vs : List EValue),
        st.buffer.length = cfg.buffer_size →
        (∀ v ∈ st.buffer, v.isFinite = true) →
        vs.length = cfg.step_size →
        (∀ v ∈ vs, v.isFinite = true) →
        0 < cfg.step_size → cfg.step_size < cfg.buffer_size →
        (process_window cfg st).2.windows = st.windows ++ [st.buffer] ∧
          (vs.foldl (fun s v => (procStep cfg s v).1) (process_window cfg st).2).windows =
            st.windows ++ [st.buffer, st.buffer.drop cfg.step_size ++ vs] ∧
          (st.buffer.drop cfg.step_size ++ vs).take (cfg.buffer_size - cfg.step_size) =
            st.buffer.drop cfg.step_size ∧
          (st.buffer.drop cfg.step_size).length = cfg.buffer_size - cfg.step_size) := by
  refine ⟨?_, ?_, ?_⟩
  · intro n l
    rw [evictLoop_eq_drop]
    simp only [List.length_drop]
    omega
  · intro st r st' hpw
    simp only [process_window] at hpw
    split at hpw
    · simp at hpw
    · split at hpw
      · simp at hpw
      · rw [Prod.mk.injEq] at hpw
        rw [← hpw.2]
        simp only [evictLoop_eq_drop, List.length_drop]
        omega
  · intro st vs hlen hfin hvslen hvsfin hpos hlt
    have hdroplen : (st.buffer.drop cfg.step_size).length = cfg.buffer_size - cfg.step_size := by
      simp [List.length_drop, hlen]
    have hsucc := process_window_success cfg st hlen hfin
    have hrun := run_fill cfg vs (process_window cfg st).2
      (by rw [hsucc.2.1]; simp [List.length_drop, hlen]; omega)
      (by omega)
      (by
        intro x hx
        rw [hsucc.2.1] at hx
        exact hfin x (List.mem_of_mem_drop hx))
      hvsfin
    refine ⟨hsucc.2.2, ?_, ?_, hdroplen⟩
    · rw [hrun.1, hsucc.2.2, hsucc.2.1]
      simp
    · rw [← hdroplen]
      exact List.take_left _ _

/-- Witness for `eviction_and_overlap`: the overlap conjunct evaluated at
the fixture `cfg0`, `st0` with the single fresh sample `4`. -/
theorem eviction_and_overlap_witness :
    (process_window cfg0 st0).2.windows = st0.windows ++ [st0.buffer] ∧
      ([EValue.finite 4].foldl (fun s v => (procStep cfg0 s v).1) (process_window cfg0 st0).2).windows =
        st0.windows ++ [st0.buffer, st0.buffer.drop cfg0.step_size ++ [EValue.finite 4]] ∧
      (st0.buffer.drop cfg0.step_size ++ [EValue.finite 4]).take (cfg0.buffer_size - cfg0.step_size) =
        st0.buffer.drop cfg0.step_size ∧
      (st0.buffer.drop cfg0.step_size).length = cfg0.buffer_size - cfg0.step_size :=
  (eviction_and_overlap cfg0).2.2 st0 [EValue.finite 4]
    (by decide) (by decide) (by decide) (by decide) (by decide) (by decide)

/-- C4: over any run of the Ingestion Stage, `samples_collected` grows by
exactly the number of units that parsed successfully, regardless of
enqueue success; `samples_dropped` grows by exactly the number of samples
whose non-blocking enqueue failed; a unit fails to enqueue precisely when
it parsed and found the data queue at capacity; and units that fail to
parse produce a `skipped` outcome, which is exactly a parse failure. -/
theorem ingest_accounting (cap : ℕ) (st : IngestState) (units : List RawUnit) :
    (ingestRun cap st units).1.samples_collected =
        st.samples_collected + (units.filter (fun u => u.payload.isSome)).length ∧
      (ingestRun cap st units).1.samples_dropped =
        st.samples_dropped +
          ((ingestRun cap st units).2.filter (fun e => e = IngestEvent.droppedFull)).length ∧
      (∀ (s : IngestState) (u : RawUnit),
        (ingestStep cap s u).2 = IngestEvent.droppedFull ↔
          u.payload.isSome = true ∧ cap ≤ (s.data_queue.drop u.drains).length) ∧
      (∀ (s : IngestState) (u : RawUnit),
        (ingestStep cap s u).2 = IngestEvent.skipped ↔ u.payload = none) := by
  refine ⟨?_, ?_, ?_, ?_⟩
  · induction units generalizing st with
    | nil => simp [ingestRun]
    | cons u us ih =>
      rcases u with ⟨d, _ | v⟩
      · simp [ingestRun, ingestStep, ih]
      · simp only [ingestRun, ingestStep]
        by_cases hfull : st.data_queue.length - d < cap <;>
          simp [List.length_drop, hfull, ih, List.filter_cons] <;> omega
  · induction units generalizing st with
    | nil => simp [ingestRun]
    | cons u us ih =>
      rcases u with ⟨d, _ | v⟩
      · simp [ingestRun, ingestStep, ih, List.filter_cons]
      · simp only [ingestRun, ingestStep]
        by_cases hfull : st.data_queue.length - d < cap
        · simp [List.length_drop, hfull, ih, List.filter_cons]
        · simp [List.length_drop, hfull, ih, List.filter_cons]
          omega
  · intro s u
    rcases u with ⟨d, _ | v⟩
    · simp [ingestStep]
    · by_cases hfull : s.data_queue.length - d < cap
      · simp [ingestStep, List.length_drop, hfull]
      · simp [ingestStep, List.length_drop, hfull]
        omega
  · intro s u
    rcases u with ⟨d, _ | v⟩
    · simp [ingestStep]
    · by_cases hfull : s.data_queue.length - d < cap
      · simp [ingestStep, List.length_drop, hfull]
      · simp [ingestStep, List.length_drop, hfull]

/-- C5 counterexample: constructing with `step_size = 2 > buffer_size = 1`
succeeds, as does the non-positive capacity `buffer_size = 0`; the claimed
construction-time rejection does not happen. -/
theorem init_accepts_invalid :
    (init_processor ⟨1, 2⟩).isSome = true ∧
      (init_processor ⟨0, 5⟩).isSome = true := by
  decide

/-- C5 (amended): `__init__` performs no configuration validation:
construction succeeds for every `step_size` and every non-negative
`buffer_size`, failing only when `deque(maxlen=buffer_size)` rejects a
negative `maxlen`.  In particular `step_size > buffer_size` and
`buffer_size = 0` are accepted, and nothing is rejected before the stages
start. -/
theorem init_no_validation (c : InitConfig) :
    (init_processor c).isSome = true ↔ 0 ≤ c.buffer_size := by
  constructor
  · intro h
    by_contra hneg
    have hlt : c.buffer_size < 0 := by omega
    unfold init_processor at h
    rw [if_pos hlt] at h
    simp at h
  · intro h
    unfold init_processor
    rw [if_neg (by omega)]
    rfl

/-- C8: `get_latest_result` (a total function, hence non-blocking)
returns `None` exactly when the result channel holds no result, and
otherwise removes and returns the oldest result: the prior queue was that
result followed by the returned remainder, one element shorter. -/
theorem get_latest_result_spec (q : List Result) :
    (get_latest_result q = none ↔ q = []) ∧
      ∀ (r : Result) (rest : List Result),
        get_latest_result q = some (r, rest) →
          q = r :: rest ∧ rest.length + 1 = q.length := by
  cases q with
  | nil => simp [get_latest_result]
  | cons r rest =>
    constructor
    · simp [get_latest_result]
    · intro r2 rest2 h
      simp only [get_latest_result, Option.some.injEq, Prod.mk.injEq] at h
      simp [← h.1, ← h.2]

/-- Witness for `get_latest_result_spec` on a one-element queue. -/
theorem get_latest_result_witness :
    ([(⟨[], [], ⟨0, 0, 0, 0⟩, none⟩ : Result)] =
        (⟨[], [], ⟨0, 0, 0, 0⟩, none⟩ : Result) :: [] ∧
      ([] : List Result).length + 1 = [(⟨[], [], ⟨0, 0, 0, 0⟩, none⟩ : Result)].length) :=
  (get_latest_result_spec _).2 _ [] rfl

/-- C9: calling `stop()` on a freshly constructed, never-started
controller is a no-op on the state (the guarded joins are skipped, so no
error is raised), and calling `start()` twice in a row is the same as
calling it once, leaving exactly one spawned Ingestion/Processing thread
pair. -/
theorem lifecycle_safe :
    stop initController = initController ∧
      start (start initController) = start initController ∧
      (start initController).pairs_spawned = 1 := by
  decide

end EMG
